import Mathlib

/-!
Verification of the list-reordering engine of the `listy` repository.

The definitions below are a shallow embedding of the JavaScript source:

* time utilities `toMinutes`, `fromMinutes`, `diffForward`, `addMinutes` and the
  schedule model method `moveToIndexWithReflow` from the shedule component
  (`src/unnamed/part_003`);
* the generic list reorder `moveToIndex` from `src/assets/js/core/model.js`;
* the insertion-index computation `indexFromPointerY` and the `dragstart`
  handler state update `onDragStart` from the drag-and-drop helper
  (`src/unnamed/part_008`).

Mutating methods that either write a new list to storage or return without
writing are embedded as pure functions returning `Option` (`none` = the method
returned early and no write happened; `some l` = the list `l` was written).
-/

namespace Listy

/-- Characters accepted as whitespace (`\s`) by the `HH:MM` regex in the
shedule component.  Only the set membership of digits and `:` matters for the
reachable inputs; we include the common JavaScript whitespace characters. -/
def isJsSpace (c : Char) : Bool :=
  c = ' ' || c = '\t' || c = '\n' || c = '\r' || c = '\x0b' || c = '\x0c' || c = ' '

/-- Strips leading and trailing whitespace, mirroring the `\s*` anchors of the
regex `^\s*(\d{2}):(\d{2})\s*$` in `toMinutes`. -/
def trimWs (l : List Char) : List Char :=
  ((l.dropWhile isJsSpace).reverse.dropWhile isJsSpace).reverse

/-- Numeric value of a digit character. -/
def digitVal (c : Char) : Nat := c.toNat - 48

/-- `toMinutes` from `src/unnamed/part_003`: parses `"HH:MM"` (two digits,
colon, two digits, optional surrounding whitespace) and returns
`clamp(h)*60 + clamp(m)` with hours clamped to `0..23` and minutes to `0..59`;
any non-matching string yields `0` (the regex miss gives `h = 0, min = 0`). -/
def toMinutes (s : String) : Nat :=
  match trimWs s.data with
  | [h1, h2, ':', m1, m2] =>
    if h1.isDigit && h2.isDigit && m1.isDigit && m2.isDigit then
      min 23 (10 * digitVal h1 + digitVal h2) * 60 + min 59 (10 * digitVal m1 + digitVal m2)
    else 0
  | _ => 0

/-- Two-digit zero-padded decimal rendering; equals the source's
`String(n).padStart(2, "0")` for every `n < 100` (the only values reaching it:
hours `< 24` and minutes `< 60`). -/
def pad2 (n : Nat) : String := String.mk [Nat.digitChar (n / 10), Nat.digitChar (n % 10)]

/-- `fromMinutes` from `src/unnamed/part_003`: normalizes into `0..1439` via
`((minutes % 1440) + 1440) % 1440` and formats as `"HH:MM"`.  (For a positive
modulus the JavaScript double-remainder and `Int.emod` agree.) -/
def fromMinutes (minutes : Int) : String :=
  let total := (((minutes % 1440) + 1440) % 1440).toNat
  pad2 (total / 60) ++ ":" ++ pad2 (total % 60)

/-- `diffForward` from `src/unnamed/part_003`: forward difference `b - a` in
minutes, wrapping at 24h. -/
def diffForward (a b : String) : Int :=
  let d : Int := (toMinutes b : Int) - (toMinutes a : Int)
  if 0 ≤ d then d else d + 1440

/-- `addMinutes` from `src/unnamed/part_003`: adds minutes to an `"HH:MM"`
time with 24h wrap-around. -/
def addMinutes (hhmm : String) (minutes : Int) : String :=
  fromMinutes ((toMinutes hhmm : Int) + minutes)

/-- A stored time string in canonical in-range form: exactly `"HH:MM"` with
`00 ≤ HH ≤ 23` and `00 ≤ MM ≤ 59`.  Times produced by `fromMinutes` are always
canonical; `getAll` only guarantees the `\d{2}:\d{2}` shape. -/
def isCanonicalTime (s : String) : Bool :=
  match s.data with
  | [h1, h2, ':', m1, m2] =>
    h1.isDigit && h2.isDigit && m1.isDigit && m2.isDigit &&
      decide (10 * digitVal h1 + digitVal h2 < 24) &&
      decide (10 * digitVal m1 + digitVal m2 < 60)
  | _ => false

/-- Reserved id of the terminal "End" row of a schedule. -/
def END_ID : String := "__END__"

/-- Schedule item `{id, text, time}` from `src/unnamed/part_003`. -/
structure SheduleItem where
  id : String
  text : String
  time : String
deriving Repr, DecidableEq, Inhabited

/-- The real activities of a stored schedule list: everything except the END
sentinel (`beforeAll.filter((i) => i.id !== END_ID)`). -/
def activitiesOf (l : List SheduleItem) : List SheduleItem :=
  l.filter (fun i => !(i.id == END_ID))

/-- The END sentinel, if present
(`beforeAll.find((i) => i.id === END_ID) || null`). -/
def endBeforeOf (l : List SheduleItem) : Option SheduleItem :=
  l.find? (fun i => i.id == END_ID)

/-- The time used as the successor of the last activity when capturing
durations: `endBefore?.time || "23:59"` (a missing END, or an END with an
empty—falsy—time string, falls back to the default `"23:59"`). -/
def endTimeBeforeOf (l : List SheduleItem) : String :=
  match endBeforeOf l with
  | some e => if e.time == "" then "23:59" else e.time
  | none => "23:59"

/-- The duration map captured from the pre-reorder order: each activity is
paired with the forward difference from its time to the next activity's time
(the END time for the last activity).  Mirrors the `durations[cur.id] = ...`
loop in `moveToIndexWithReflow`. -/
def captureDurations : List SheduleItem → String → List (String × Int)
  | [], _ => []
  | [a], endT => [(a.id, diffForward a.time endT)]
  | a :: b :: rest, endT => (a.id, diffForward a.time b.time) :: captureDurations (b :: rest) endT

/-- Lookup in the duration map, `durations[id] ?? 0`.  A JavaScript object
keeps the last assignment to a key, hence the lookup on the reversed list. -/
def lookupDur (durs : List (String × Int)) (key : String) : Int :=
  match durs.reverse.find? (fun p => p.1 == key) with
  | some p => p.2
  | none => 0

/-- The durations captured by `moveToIndexWithReflow` for a stored list. -/
def durationsOf (l : List SheduleItem) : List (String × Int) :=
  captureDurations (activitiesOf l) (endTimeBeforeOf l)

/-- The time-propagation loop of `moveToIndexWithReflow`: walks the new order,
assigns `currentStart` to each item, and advances `currentStart` by the item's
captured duration.  Returns the re-timed list together with the final
`currentStart` (which becomes the new END time). -/
def reflowTimes (acts : List SheduleItem) (start : String) (durs : List (String × Int)) :
    List SheduleItem × String :=
  match acts with
  | [] => ([], start)
  | it :: rest =>
    let next := reflowTimes rest (addMinutes start (lookupDur durs it.id)) durs
    ({ it with time := start } :: next.1, next.2)

/-- `Model.moveToIndexWithReflow` from `src/unnamed/part_003`, as a pure
function on the stored list (the output of `getAll`): `none` means the method
returned early without writing; `some l` means `l` was written to storage. -/
def moveToIndexWithReflow (beforeAll : List SheduleItem) (draggedId : String) (toIndex : Int) :
    Option (List SheduleItem) :=
  let acts := activitiesOf beforeAll
  let endBefore := endBeforeOf beforeAll
  match acts with
  | [] => none
  | [_] => none
  | first :: _ :: _ =>
    match acts.findIdx? (fun i => i.id == draggedId) with
    | none => none
    | some idxD =>
      let durs := durationsOf beforeAll
      let dest0 : Int := max 0 (min (acts.length : Int) toIndex)
      match acts[idxD]? with
      | none => none
      | some moved =>
        let dest := if dest0 > (idxD : Int) then dest0 - 1 else dest0
        let activitiesAfter := (acts.eraseIdx idxD).insertIdx dest.toNat moved
        let reflow := reflowTimes activitiesAfter first.time durs
        let endAfter :=
          match endBefore with
          | some e => { e with time := reflow.2 }
          | none => { id := END_ID, text := "End", time := reflow.2 : SheduleItem }
        some (reflow.1 ++ [endAfter])

/-- Stored item `{id, text, completed}` of the root model
(`src/assets/js/core/model.js`). -/
structure Item where
  id : String
  text : String
  completed : Bool
deriving Repr, DecidableEq, Inhabited

/-- `Model.moveToIndex` from `src/assets/js/core/model.js`, as a pure function
on the stored list: `none` means the method returned early (no write). -/
def moveToIndex (items : List Item) (id : String) (toIndex : Int) : Option (List Item) :=
  if items.length ≤ 1 then none
  else
    match items.findIdx? (fun i => i.id == id) with
    | none => none
    | some f =>
      let dest0 : Int := max 0 (min (items.length : Int) toIndex)
      if dest0 = (f : Int) ∨ dest0 = (f : Int) + 1 then none
      else
        match items[f]? with
        | none => none
        | some moved =>
          let dest := if dest0 > (f : Int) then dest0 - 1 else dest0
          some ((items.eraseIdx f).insertIdx dest.toNat moved)

/-- Bounding box of a rendered list row, as consumed by `indexFromPointerY`
(`getBoundingClientRect().top` / `.height`). -/
structure Rect where
  top : ℚ
  height : ℚ
deriving DecidableEq, Inhabited

/-- Vertical midpoint of a row: `r.top + r.height / 2`. -/
def midY (r : Rect) : ℚ := r.top + r.height / 2

/-- `indexFromPointerY` from `src/unnamed/part_008`: the index of the first
item whose midpoint lies strictly below the pointer (`clientY < midY`), or the
item count if there is none. -/
def indexFromPointerY (items : List Rect) (clientY : ℚ) : Nat :=
  match items with
  | [] => 0
  | r :: rest => if clientY < midY r then 0 else indexFromPointerY rest clientY + 1

/-- The row a `dragstart` event resolved to: its `dataset.id` (empty string for
a missing id, both being falsy) and whether it matches the `ignoreSelector`. -/
structure DragTarget where
  id : String
  excluded : Bool
deriving Repr, DecidableEq

/-- The `onDragStart` handler from `src/unnamed/part_008`, acting on the
session state `draggingId`: a missing target row, a row without an id, or an
ignored row leaves the state unchanged; otherwise `draggingId` is assigned the
target's id. -/
def onDragStart (draggingId : Option String) (target : Option DragTarget) : Option String :=
  match target with
  | none => draggingId
  | some t => if t.id == "" || t.excluded then draggingId else some t.id

/-- Adjacency correctness of a duration map with respect to a list of
activities and a terminal time: looking up each activity's id yields the
forward difference from that activity to its successor (the terminal time for
the last one). -/
def DursAdjacent (durs : List (String × Int)) : List SheduleItem → String → Prop
  | [], _ => True
  | [a], endT => lookupDur durs a.id = diffForward a.time endT
  | a :: b :: rest, endT =>
    lookupDur durs a.id = diffForward a.time b.time ∧ DursAdjacent durs (b :: rest) endT

/-- The destination index actually used by the splice in both reorder
engines: the drop index clamped to `[0, len]`, decremented by one when it lies
beyond the dragged item's index `idxD`. -/
def destIndex (len idxD : Nat) (toIndex : Int) : Nat :=
  (if (max 0 (min (len : Int) toIndex)) > (idxD : Int)
    then max 0 (min (len : Int) toIndex) - 1
    else max 0 (min (len : Int) toIndex)).toNat

/-- The reorder algorithm exactly as §4.3 of the specification words it, on a
bare id sequence: find `from` = the index of `draggedId`; clamp `toIndex` to
`[0, len]`; a clamped index of `from` or `from + 1` is a no-op; otherwise
remove the id at `from`, decrement the target by one when it exceeds `from`,
and insert the removed id at the adjusted index.  This is the reference
definition the engine is compared with, not the engine itself. -/
def reorderSpec (ids : List String) (draggedId : String) (toIndex : Int) : List String :=
  match ids.findIdx? (fun i => i == draggedId) with
  | none => ids
  | some f =>
    let t := max 0 (min (ids.length : Int) toIndex)
    if t = (f : Int) ∨ t = (f : Int) + 1 then ids
    else
      let t2 := if t > (f : Int) then t - 1 else t
      (ids.eraseIdx f).insertIdx t2.toNat (ids.getD f "")

/-- The list a reflow call leaves in storage when it does write
(`[]` as an irrelevant placeholder for the no-write case). -/
def reflowResult (beforeAll : List SheduleItem) (draggedId : String) (toIndex : Int) :
    List SheduleItem :=
  (moveToIndexWithReflow beforeAll draggedId toIndex).getD []

/-! ### Arithmetic facts about the time utilities -/

theorem digitChar_toNat {d : Nat} (hd : d ≤ 9) : (Nat.digitChar d).toNat = 48 + d := by
  interval_cases d <;> decide

theorem digitChar_isDigit {d : Nat} (hd : d ≤ 9) : (Nat.digitChar d).isDigit = true := by
  interval_cases d <;> decide

theorem isJsSpace_digitChar {d : Nat} (hd : d ≤ 9) : isJsSpace (Nat.digitChar d) = false := by
  interval_cases d <;> decide

theorem toNat_of_isDigit {c : Char} (h : c.isDigit = true) : 48 ≤ c.toNat ∧ c.toNat ≤ 57 := by
  simp only [Char.isDigit, Bool.and_eq_true, decide_eq_true_eq, ge_iff_le] at h
  obtain ⟨h1, h2⟩ := h
  have g1 : (48 : UInt32).toNat ≤ c.val.toNat := BitVec.le_def.mp (UInt32.le_def.mp h1)
  have g2 : c.val.toNat ≤ (57 : UInt32).toNat := BitVec.le_def.mp (UInt32.le_def.mp h2)
  have e1 : (48 : UInt32).toNat = 48 := by decide
  have e2 : (57 : UInt32).toNat = 57 := by decide
  exact ⟨by rw [e1] at g1; exact g1, by rw [e2] at g2; exact g2⟩

theorem digitVal_le_of_isDigit {c : Char} (h : c.isDigit = true) : digitVal c ≤ 9 := by
  have := toNat_of_isDigit h
  unfold digitVal
  omega

theorem digitVal_digitChar {d : Nat} (hd : d ≤ 9) : digitVal (Nat.digitChar d) = d := by
  unfold digitVal
  rw [digitChar_toNat hd]
  omega

theorem digitChar_digitVal {c : Char} (h : c.isDigit = true) : Nat.digitChar (digitVal c) = c := by
  have hb := toNat_of_isDigit h
  have hd : digitVal c ≤ 9 := digitVal_le_of_isDigit h
  have ht : (Nat.digitChar (digitVal c)).toNat = c.toNat := by
    rw [digitChar_toNat hd]
    unfold digitVal
    omega
  calc Nat.digitChar (digitVal c)
      = Char.ofNat ((Nat.digitChar (digitVal c)).toNat) := (Char.ofNat_toNat _).symm
    _ = Char.ofNat c.toNat := by rw [ht]
    _ = c := Char.ofNat_toNat c

theorem isJsSpace_of_isDigit {c : Char} (h : c.isDigit = true) : isJsSpace c = false := by
  rw [← digitChar_digitVal h]
  exact isJsSpace_digitChar (digitVal_le_of_isDigit h)

theorem trimWs_five {c1 c2 c3 c4 c5 : Char} (h1 : isJsSpace c1 = false)
    (h5 : isJsSpace c5 = false) : trimWs [c1, c2, c3, c4, c5] = [c1, c2, c3, c4, c5] := by
  simp [trimWs, List.dropWhile_cons, h1, h5]

theorem toMinutes_mk5 {h1 h2 m1 m2 : Char} (hh1 : h1.isDigit = true) (hh2 : h2.isDigit = true)
    (hm1 : m1.isDigit = true) (hm2 : m2.isDigit = true) :
    toMinutes (String.mk [h1, h2, ':', m1, m2]) =
      min 23 (10 * digitVal h1 + digitVal h2) * 60 + min 59 (10 * digitVal m1 + digitVal m2) := by
  unfold toMinutes
  rw [show (String.mk [h1, h2, ':', m1, m2]).data = [h1, h2, ':', m1, m2] from rfl,
    trimWs_five (isJsSpace_of_isDigit hh1) (isJsSpace_of_isDigit hm2)]
  simp [hh1, hh2, hm1, hm2]

theorem string_append_pad2 (h m : Nat) :
    (pad2 h ++ ":" ++ pad2 m).data =
      [Nat.digitChar (h / 10), Nat.digitChar (h % 10), ':',
        Nat.digitChar (m / 10), Nat.digitChar (m % 10)] := by
  simp [pad2, String.data_append]

theorem toMinutes_pad {h m : Nat} (hh : h < 24) (hm : m < 60) :
    toMinutes (pad2 h ++ ":" ++ pad2 m) = h * 60 + m := by
  have e : pad2 h ++ ":" ++ pad2 m =
      String.mk [Nat.digitChar (h / 10), Nat.digitChar (h % 10), ':',
        Nat.digitChar (m / 10), Nat.digitChar (m % 10)] :=
    String.ext (string_append_pad2 h m)
  rw [e, toMinutes_mk5 (digitChar_isDigit (by omega)) (digitChar_isDigit (by omega))
    (digitChar_isDigit (by omega)) (digitChar_isDigit (by omega)),
    digitVal_digitChar (by omega : h / 10 ≤ 9), digitVal_digitChar (by omega : h % 10 ≤ 9),
    digitVal_digitChar (by omega : m / 10 ≤ 9), digitVal_digitChar (by omega : m % 10 ≤ 9)]
  omega

theorem toMinutes_lt (s : String) : toMinutes s < 1440 := by
  unfold toMinutes
  split
  · split
    · omega
    · omega
  · omega

theorem toMinutes_fromMinutes (z : Int) : (toMinutes (fromMinutes z) : Int) = z % 1440 := by
  unfold fromMinutes
  have h0 : 0 ≤ z % 1440 := Int.emod_nonneg z (by omega)
  have h1 : z % 1440 < 1440 := Int.emod_lt_of_pos z (by omega)
  have h2 : (((z % 1440) + 1440) % 1440) = z % 1440 := by omega
  rw [h2]
  rw [toMinutes_pad (by omega) (by omega)]
  omega

theorem fromMinutes_congr {z₁ z₂ : Int} (h : z₁ % 1440 = z₂ % 1440) :
    fromMinutes z₁ = fromMinutes z₂ := by
  unfold fromMinutes
  rw [h]

theorem fromMinutes_toMinutes {s : String} (hc : isCanonicalTime s = true) :
    fromMinutes (toMinutes s) = s := by
  unfold isCanonicalTime at hc
  split at hc
  case _ h1 h2 m1 m2 heq =>
    simp only [Bool.and_eq_true, decide_eq_true_eq] at hc
    obtain ⟨⟨⟨⟨⟨hh1, hh2⟩, hm1⟩, hm2⟩, hhb⟩, hmb⟩ := hc
    have hs : s = String.mk [h1, h2, ':', m1, m2] := String.ext heq
    subst hs
    rw [toMinutes_mk5 hh1 hh2 hm1 hm2]
    have e1 : min 23 (10 * digitVal h1 + digitVal h2) = 10 * digitVal h1 + digitVal h2 := by omega
    have e2 : min 59 (10 * digitVal m1 + digitVal m2) = 10 * digitVal m1 + digitVal m2 := by omega
    rw [e1, e2]
    set h := 10 * digitVal h1 + digitVal h2 with hh
    set m := 10 * digitVal m1 + digitVal m2 with hm
    have hd1 := digitVal_le_of_isDigit hh1
    have hd2 := digitVal_le_of_isDigit hh2
    have hd3 := digitVal_le_of_isDigit hm1
    have hd4 := digitVal_le_of_isDigit hm2
    unfold fromMinutes
    have ht : ((((h * 60 + m : Nat) : Int) % 1440) + 1440) % 1440 = ((h * 60 + m : Nat) : Int) := by
      omega
    rw [ht]
    apply String.ext
    rw [show (((h * 60 + m : Nat) : Int)).toNat = h * 60 + m by omega]
    rw [string_append_pad2]
    have q1 : (h * 60 + m) / 60 = h := by omega
    have q2 : (h * 60 + m) % 60 = m := by omega
    rw [q1, q2]
    have r1 : h / 10 = digitVal h1 := by omega
    have r2 : h % 10 = digitVal h2 := by omega
    have r3 : m / 10 = digitVal m1 := by omega
    have r4 : m % 10 = digitVal m2 := by omega
    rw [r1, r2, r3, r4, digitChar_digitVal hh1, digitChar_digitVal hh2,
      digitChar_digitVal hm1, digitChar_digitVal hm2]
  case _ =>
    exact absurd hc (by simp)

theorem diffForward_nonneg (a b : String) : 0 ≤ diffForward a b := by
  simp only [diffForward]
  have := toMinutes_lt a
  have := toMinutes_lt b
  split <;> omega

theorem diffForward_lt (a b : String) : diffForward a b < 1440 := by
  simp only [diffForward]
  have := toMinutes_lt a
  have := toMinutes_lt b
  split <;> omega

theorem toMinutes_addMinutes (x : String) (d : Int) :
    (toMinutes (addMinutes x d) : Int) = ((toMinutes x : Int) + d) % 1440 := by
  unfold addMinutes
  exact toMinutes_fromMinutes _

theorem diffForward_addMinutes (x : String) {d : Int} (h0 : 0 ≤ d) (h1 : d < 1440) :
    diffForward x (addMinutes x d) = d := by
  simp only [diffForward]
  have ha := toMinutes_addMinutes x d
  have hx := toMinutes_lt x
  split <;> omega

theorem addMinutes_diffForward (a : String) {b : String} (hb : isCanonicalTime b = true) :
    addMinutes a (diffForward a b) = b := by
  unfold addMinutes
  have hx := toMinutes_lt a
  have hy := toMinutes_lt b
  have : fromMinutes ((toMinutes a : Int) + diffForward a b) = fromMinutes (toMinutes b) := by
    apply fromMinutes_congr
    simp only [diffForward]
    split <;> omega
  rw [this, fromMinutes_toMinutes hb]

/-! ### Generic list facts about the splice-based reorder -/

theorem perm_cons_eraseIdx {α : Type _} :
    ∀ (l : List α) (f : Nat) (x : α), l[f]? = some x → l.Perm (x :: l.eraseIdx f) := by
  intro l
  induction l with
  | nil => intro f x h; simp at h
  | cons a l ih =>
    intro f x h
    cases f with
    | zero =>
      simp only [List.getElem?_cons_zero, Option.some.injEq] at h
      subst h
      simp
    | succ f =>
      simp only [List.getElem?_cons_succ] at h
      have h1 : (a :: l).Perm (a :: x :: l.eraseIdx f) := (ih f x h).cons a
      have h2 : (a :: x :: l.eraseIdx f).Perm (x :: a :: l.eraseIdx f) := List.Perm.swap x a _
      simpa using h1.trans h2

theorem insertIdx_eraseIdx_self {α : Type _} :
    ∀ (l : List α) (f : Nat) (x : α), l[f]? = some x → (l.eraseIdx f).insertIdx f x = l := by
  intro l
  induction l with
  | nil => intro f x h; simp at h
  | cons a l ih =>
    intro f x h
    cases f with
    | zero =>
      simp only [List.getElem?_cons_zero, Option.some.injEq] at h
      subst h
      simp [List.insertIdx_zero]
    | succ f =>
      simp only [List.getElem?_cons_succ] at h
      simp only [List.eraseIdx_cons_succ, List.insertIdx_succ_cons]
      rw [ih f x h]

/-! ### Facts about the reflow loop -/

theorem reflowTimes_length (durs : List (String × Int)) :
    ∀ (acts : List SheduleItem) (start : String),
      (reflowTimes acts start durs).1.length = acts.length := by
  intro acts
  induction acts with
  | nil => intro start; simp [reflowTimes]
  | cons a rest ih => intro start; simp [reflowTimes, ih]

theorem reflowTimes_map_id (durs : List (String × Int)) :
    ∀ (acts : List SheduleItem) (start : String),
      (reflowTimes acts start durs).1.map SheduleItem.id = acts.map SheduleItem.id := by
  intro acts
  induction acts with
  | nil => intro start; simp [reflowTimes]
  | cons a rest ih => intro start; simp [reflowTimes, ih]

theorem reflowTimes_head_time (durs : List (String × Int)) (a : SheduleItem)
    (rest : List SheduleItem) (start : String) :
    ((reflowTimes (a :: rest) start durs).1.getD 0 default).time = start := by
  simp [reflowTimes]

theorem reflowTimes_chain (durs : List (String × Int)) :
    ∀ (acts : List SheduleItem) (start : String) (i : Nat), i + 1 < acts.length →
      ((reflowTimes acts start durs).1.getD (i + 1) default).time
        = addMinutes (((reflowTimes acts start durs).1.getD i default).time)
            (lookupDur durs (((reflowTimes acts start durs).1.getD i default).id)) := by
  intro acts
  induction acts with
  | nil => intro start i h; simp at h
  | cons a rest ih =>
    intro start i h
    cases i with
    | zero =>
      cases rest with
      | nil => simp at h
      | cons b r2 =>
        show ((reflowTimes (a :: b :: r2) start durs).1.getD 1 default).time = _
        simp only [reflowTimes, List.getD_cons_succ, List.getD_cons_zero]
    | succ j =>
      have hj : j + 1 < rest.length := by
        simp only [List.length_cons] at h
        omega
      have := ih (addMinutes start (lookupDur durs a.id)) j hj
      simpa [reflowTimes] using this

theorem reflowTimes_final (durs : List (String × Int)) :
    ∀ (acts : List SheduleItem) (start : String), acts ≠ [] →
      (reflowTimes acts start durs).2
        = addMinutes (((reflowTimes acts start durs).1.getD (acts.length - 1) default).time)
            (lookupDur durs
              (((reflowTimes acts start durs).1.getD (acts.length - 1) default).id)) := by
  intro acts
  induction acts with
  | nil => intro start h; exact absurd rfl h
  | cons a rest ih =>
    intro start _
    cases rest with
    | nil => simp [reflowTimes]
    | cons b r2 =>
      have hne : (b :: r2) ≠ [] := by simp
      have := ih (addMinutes start (lookupDur durs a.id)) hne
      have hlen : (a :: b :: r2).length - 1 = ((b :: r2).length - 1) + 1 := by simp
      simp only [reflowTimes, hlen, List.getD_cons_succ]
      exact this

/-! ### Facts about the captured duration map -/

theorem captureDurations_keys :
    ∀ (acts : List SheduleItem) (endT : String),
      (captureDurations acts endT).map Prod.fst = acts.map SheduleItem.id := by
  intro acts
  induction acts with
  | nil => intro endT; simp [captureDurations]
  | cons a rest ih =>
    intro endT
    cases rest with
    | nil => simp [captureDurations]
    | cons b r2 => simp [captureDurations, ih]

theorem captureDurations_bounds :
    ∀ (acts : List SheduleItem) (endT : String) (p : String × Int),
      p ∈ captureDurations acts endT → 0 ≤ p.2 ∧ p.2 < 1440 := by
  intro acts
  induction acts with
  | nil => intro endT p h; simp [captureDurations] at h
  | cons a rest ih =>
    intro endT p h
    cases rest with
    | nil =>
      simp only [captureDurations, List.mem_singleton] at h
      subst h
      exact ⟨diffForward_nonneg _ _, diffForward_lt _ _⟩
    | cons b r2 =>
      simp only [captureDurations, List.mem_cons] at h
      rcases h with h | h
      · subst h
        exact ⟨diffForward_nonneg _ _, diffForward_lt _ _⟩
      · exact ih endT p h

theorem lookupDur_bounds (l : List SheduleItem) (endT : String) (k : String) :
    0 ≤ lookupDur (captureDurations l endT) k ∧ lookupDur (captureDurations l endT) k < 1440 := by
  unfold lookupDur
  cases hfind : (captureDurations l endT).reverse.find? (fun p => p.1 == k) with
  | none => simp
  | some p =>
    have hm : p ∈ (captureDurations l endT).reverse := List.mem_of_find?_eq_some hfind
    exact captureDurations_bounds l endT p (by simpa using hm)

theorem lookupDur_cons_self {p : String × Int} {durs : List (String × Int)}
    (h : ∀ q ∈ durs, (q.1 == p.1) = false) : lookupDur (p :: durs) p.1 = p.2 := by
  unfold lookupDur
  rw [List.reverse_cons, List.find?_append]
  have hnone : durs.reverse.find? (fun q => q.1 == p.1) = none := by
    rw [List.find?_eq_none]
    intro x hx
    simp [h x (by simpa using hx)]
  simp [hnone]

theorem lookupDur_cons_ne {p : String × Int} {durs : List (String × Int)} {k : String}
    (h : (p.1 == k) = false) : lookupDur (p :: durs) k = lookupDur durs k := by
  unfold lookupDur
  rw [List.reverse_cons, List.find?_append]
  have hone : [p].find? (fun q => q.1 == k) = none := by simp [h]
  rw [hone]
  cases durs.reverse.find? (fun q => q.1 == k) <;> simp

theorem dursAdjacent_cons_of_absent {p : String × Int} {durs : List (String × Int)} :
    ∀ (l : List SheduleItem) (endT : String), (∀ x ∈ l, (p.1 == x.id) = false) →
      DursAdjacent durs l endT → DursAdjacent (p :: durs) l endT := by
  intro l
  induction l with
  | nil => intro endT _ _; trivial
  | cons a rest ih =>
    intro endT habs hadj
    have ha : (p.1 == a.id) = false := habs a (by simp)
    cases rest with
    | nil =>
      simp only [DursAdjacent] at hadj ⊢
      rw [lookupDur_cons_ne ha]
      exact hadj
    | cons b r2 =>
      simp only [DursAdjacent] at hadj ⊢
      obtain ⟨h1, h2⟩ := hadj
      refine ⟨by rw [lookupDur_cons_ne ha]; exact h1, ?_⟩
      exact ih endT (fun x hx => habs x (List.mem_cons_of_mem a hx)) h2

theorem dursAdjacent_capture :
    ∀ (acts : List SheduleItem) (endT : String), (acts.map SheduleItem.id).Nodup →
      DursAdjacent (captureDurations acts endT) acts endT := by
  intro acts
  induction acts with
  | nil => intro endT _; trivial
  | cons a rest ih =>
    intro endT hnodup
    have hnotin : a.id ∉ rest.map SheduleItem.id := by
      simp only [List.map_cons, List.nodup_cons] at hnodup
      exact hnodup.1
    have habs : ∀ q ∈ captureDurations rest endT, (q.1 == a.id) = false := by
      intro q hq
      have hkey : q.1 ∈ rest.map SheduleItem.id := by
        rw [← captureDurations_keys rest endT]
        exact List.mem_map_of_mem Prod.fst hq
      have : q.1 ≠ a.id := fun he => hnotin (he ▸ hkey)
      simpa using this
    have htail : (rest.map SheduleItem.id).Nodup := by
      simp only [List.map_cons, List.nodup_cons] at hnodup
      exact hnodup.2
    cases rest with
    | nil =>
      simp only [captureDurations, DursAdjacent]
      have : lookupDur [(a.id, diffForward a.time endT)] a.id = diffForward a.time endT := by
        simp [lookupDur]
      exact this
    | cons b r2 =>
      simp only [captureDurations, DursAdjacent]
      constructor
      · have hself : lookupDur ((a.id, diffForward a.time b.time) :: captureDurations (b :: r2) endT)
            (a.id, diffForward a.time b.time).1 = (a.id, diffForward a.time b.time).2 :=
          lookupDur_cons_self (by intro q hq; exact habs q hq)
        simpa using hself
      · have := ih endT htail
        have habs2 : ∀ x ∈ b :: r2, (((a.id, diffForward a.time b.time) : String × Int).1 == x.id) = false := by
          intro x hx
          have : x.id ∈ (b :: r2).map SheduleItem.id := List.mem_map_of_mem SheduleItem.id hx
          have hne : a.id ≠ x.id := fun he => hnotin (he ▸ this)
          simpa using hne
        exact dursAdjacent_cons_of_absent (b :: r2) endT habs2 this

theorem reflowTimes_fixpoint (durs : List (String × Int)) :
    ∀ (rest : List SheduleItem) (a : SheduleItem) (endT : String),
      (∀ x ∈ a :: rest, isCanonicalTime x.time = true) → isCanonicalTime endT = true →
      DursAdjacent durs (a :: rest) endT →
      reflowTimes (a :: rest) a.time durs = (a :: rest, endT) := by
  intro rest
  induction rest with
  | nil =>
    intro a endT hcanon hcEnd hadj
    simp only [DursAdjacent] at hadj
    simp only [reflowTimes, hadj]
    rw [addMinutes_diffForward _ hcEnd]
  | cons b r2 ih =>
    intro a endT hcanon hcEnd hadj
    simp only [DursAdjacent] at hadj
    obtain ⟨h1, h2⟩ := hadj
    have hb : isCanonicalTime b.time = true := hcanon b (by simp)
    have key : addMinutes a.time (lookupDur durs a.id) = b.time := by
      rw [h1]
      exact addMinutes_diffForward _ hb
    have ihb := ih b endT (fun x hx => hcanon x (List.mem_cons_of_mem a hx)) hcEnd h2
    have step : reflowTimes (a :: b :: r2) a.time durs
        = ({ a with time := a.time } ::
            (reflowTimes (b :: r2) (addMinutes a.time (lookupDur durs a.id)) durs).1,
          (reflowTimes (b :: r2) (addMinutes a.time (lookupDur durs a.id)) durs).2) := rfl
    rw [step, key, ihb]

/-! ### Inversion of a successful reflow -/

theorem reflow_inversion {beforeAll : List SheduleItem} {draggedId : String} {toIndex : Int}
    {res : List SheduleItem} (h : moveToIndexWithReflow beforeAll draggedId toIndex = some res) :
    ∃ (idxD : Nat) (moved : SheduleItem) (after : List SheduleItem),
      (activitiesOf beforeAll).findIdx? (fun i => i.id == draggedId) = some idxD ∧
      (activitiesOf beforeAll)[idxD]? = some moved ∧
      after = ((activitiesOf beforeAll).eraseIdx idxD).insertIdx
        (destIndex (activitiesOf beforeAll).length idxD toIndex) moved ∧
      2 ≤ (activitiesOf beforeAll).length ∧
      after.length = (activitiesOf beforeAll).length ∧
      after.Perm (activitiesOf beforeAll) ∧
      res =
        (reflowTimes after (((activitiesOf beforeAll).getD 0 default).time)
            (durationsOf beforeAll)).1 ++
          [(match endBeforeOf beforeAll with
            | some e =>
              { e with
                time := (reflowTimes after (((activitiesOf beforeAll).getD 0 default).time)
                    (durationsOf beforeAll)).2 }
            | none =>
              { id := END_ID, text := "End",
                time := (reflowTimes after (((activitiesOf beforeAll).getD 0 default).time)
                    (durationsOf beforeAll)).2 })] := by
  simp only [moveToIndexWithReflow] at h
  split at h
  · exact absurd h (by simp)
  · exact absurd h (by simp)
  case _ first second rest3 heq =>
    split at h
    · exact absurd h (by simp)
    case _ idxD hfind =>
      split at h
      · exact absurd h (by simp)
      case _ moved hget =>
        rw [Option.some_inj] at h
        have hidx : idxD < (activitiesOf beforeAll).length := by
          obtain ⟨hlt, -, -⟩ := List.findIdx?_eq_some_iff_getElem.mp hfind
          exact hlt
        refine ⟨idxD, moved, ((activitiesOf beforeAll).eraseIdx idxD).insertIdx
          (destIndex (activitiesOf beforeAll).length idxD toIndex) moved,
          hfind, hget, rfl, ?_, ?_, ?_, ?_⟩
        · rw [heq]; simp
        · have herase : ((activitiesOf beforeAll).eraseIdx idxD).length
              = (activitiesOf beforeAll).length - 1 := List.length_eraseIdx_of_lt hidx
          rw [List.length_insertIdx _ _ (by
            rw [herase]
            rw [heq] at hidx ⊢
            simp only [List.length_cons] at hidx ⊢
            unfold destIndex
            split <;> omega), herase]
          rw [heq]
          simp
        · have hp1 := List.perm_insertIdx moved ((activitiesOf beforeAll).eraseIdx idxD)
            (n := destIndex (activitiesOf beforeAll).length idxD toIndex)
            (by
              rw [List.length_eraseIdx_of_lt hidx]
              rw [heq] at hidx ⊢
              simp only [List.length_cons] at hidx ⊢
              unfold destIndex
              split <;> omega)
          have hp2 := perm_cons_eraseIdx (activitiesOf beforeAll) idxD moved hget
          exact hp1.trans hp2.symm
        · rw [← h, heq]
          simp [destIndex]

/-! ### Inversion of a successful plain reorder -/

theorem map_insertIdx {α β : Type _} (f : α → β) :
    ∀ (n : Nat) (l : List α) (x : α), (l.insertIdx n x).map f = (l.map f).insertIdx n (f x) := by
  intro n
  induction n with
  | zero => intro l x; simp [List.insertIdx_zero]
  | succ n ih =>
    intro l x
    cases l with
    | nil => simp [List.insertIdx_succ_nil]
    | cons a l => simp [List.insertIdx_succ_cons, ih]

theorem map_eraseIdx {α β : Type _} (f : α → β) :
    ∀ (l : List α) (n : Nat), (l.eraseIdx n).map f = (l.map f).eraseIdx n := by
  intro l
  induction l with
  | nil => intro n; simp
  | cons a l ih =>
    intro n
    cases n with
    | zero => simp
    | succ n => simp [List.eraseIdx_cons_succ, ih]

theorem moveToIndex_eq_some {items : List Item} {draggedId : String} {toIndex : Int}
    {out : List Item} (h : moveToIndex items draggedId toIndex = some out) :
    ∃ (f : Nat) (moved : Item),
      items.findIdx? (fun i => i.id == draggedId) = some f ∧
      items[f]? = some moved ∧
      f < items.length ∧
      out = (items.eraseIdx f).insertIdx
        (if (max 0 (min (items.length : Int) toIndex)) > (f : Int)
          then max 0 (min (items.length : Int) toIndex) - 1
          else max 0 (min (items.length : Int) toIndex)).toNat moved := by
  simp only [moveToIndex] at h
  split at h
  · exact absurd h (by simp)
  · split at h
    · exact absurd h (by simp)
    case _ f hfind =>
      split at h
      · exact absurd h (by simp)
      · split at h
        · exact absurd h (by simp)
        case _ moved hget =>
          rw [Option.some_inj] at h
          exact ⟨f, moved, hfind, hget,
            (List.findIdx?_eq_some_iff_getElem.mp hfind).1, h.symm⟩

/-! ### Claim C3 -/

/-- C3: on every actual reorder (id present, clamped target not a no-op slot),
`moveToIndex` produces exactly the id sequence described by the spec —
remove at `from`, decrement the target when it exceeds `from`, insert there —
and in particular `[A,B,C]` with `A`→3 gives `[B,C,A]` and `C`→0 gives
`[C,A,B]`. -/
theorem reorderEngine_matches_spec_description (items : List Item) (draggedId : String)
    (toIndex : Int) (f : Nat)
    (hf : items.findIdx? (fun i => i.id == draggedId) = some f)
    (hlen : 2 ≤ items.length)
    (hne1 : max 0 (min (items.length : Int) toIndex) ≠ (f : Int))
    (hne2 : max 0 (min (items.length : Int) toIndex) ≠ (f : Int) + 1) :
    (moveToIndex items draggedId toIndex).map (List.map Item.id)
      = some (reorderSpec (items.map Item.id) draggedId toIndex)
    ∧ moveToIndex [⟨"A", "", false⟩, ⟨"B", "", false⟩, ⟨"C", "", false⟩] "A" 3
      = some [⟨"B", "", false⟩, ⟨"C", "", false⟩, ⟨"A", "", false⟩]
    ∧ moveToIndex [⟨"A", "", false⟩, ⟨"B", "", false⟩, ⟨"C", "", false⟩] "C" 0
      = some [⟨"C", "", false⟩, ⟨"A", "", false⟩, ⟨"B", "", false⟩] := by
  refine ⟨?_, by decide, by decide⟩
  have hlt : f < items.length := (List.findIdx?_eq_some_iff_getElem.mp hf).1
  have hget : items[f]? = some items[f] := List.getElem?_eq_getElem hlt
  have hmapfind : (items.map Item.id).findIdx? (fun i => i == draggedId) = some f := by
    rw [List.findIdx?_map]
    exact hf
  have hnlen : ¬ items.length ≤ 1 := by omega
  have hnor : ¬ (max 0 (min (items.length : Int) toIndex) = (f : Int)
      ∨ max 0 (min (items.length : Int) toIndex) = (f : Int) + 1) := by
    rintro (h | h)
    · exact hne1 h
    · exact hne2 h
  simp only [moveToIndex, hf, hget, if_neg hnlen, if_neg hnor]
  simp only [reorderSpec, hmapfind, List.length_map, if_neg hnor]
  rw [Option.map_some']
  congr 1
  rw [map_insertIdx, map_eraseIdx]
  congr 1
  rw [List.getD_eq_getElem?_getD, List.getElem?_map, hget]
  rfl

/-- Witness for C3 applying the theorem at `[A,B,C]`, dragging `A` to 3. -/
theorem reorderEngine_matches_spec_description_witness :
    (moveToIndex [⟨"A", "", false⟩, ⟨"B", "", false⟩, ⟨"C", "", false⟩] "A" 3).map
        (List.map Item.id)
      = some (reorderSpec ["A", "B", "C"] "A" 3) :=
  (reorderEngine_matches_spec_description
    [⟨"A", "", false⟩, ⟨"B", "", false⟩, ⟨"C", "", false⟩] "A" 3 0
    (by decide) (by norm_num) (by decide) (by decide)).1

/-! ### Claim C5 -/

/-- C5: the engine always writes a permutation of its input: the stored list
after a reorder has the same length and the same multiset of items (hence of
ids) as before, whether or not a write happened. -/
theorem reorder_preserves_id_multiset (items : List Item) (draggedId : String) (toIndex : Int)
    (hne : items ≠ []) (hmem : draggedId ∈ items.map Item.id) :
    ((moveToIndex items draggedId toIndex).getD items).Perm items
    ∧ ((moveToIndex items draggedId toIndex).getD items).length = items.length
    ∧ (((moveToIndex items draggedId toIndex).getD items).map Item.id : Multiset String)
      = ((items.map Item.id : List String) : Multiset String) := by
  have hperm : ((moveToIndex items draggedId toIndex).getD items).Perm items := by
    cases hres : moveToIndex items draggedId toIndex with
    | none => simp
    | some out =>
      simp only [Option.getD_some]
      obtain ⟨f, moved, hfind, hget, hlt, hout⟩ := moveToIndex_eq_some hres
      subst hout
      have hp1 := List.perm_insertIdx moved (items.eraseIdx f)
        (n := (if (max 0 (min (items.length : Int) toIndex)) > (f : Int)
          then max 0 (min (items.length : Int) toIndex) - 1
          else max 0 (min (items.length : Int) toIndex)).toNat)
        (by
          rw [List.length_eraseIdx_of_lt hlt]
          split <;> omega)
      have hp2 := perm_cons_eraseIdx items f moved hget
      exact hp1.trans hp2.symm
  refine ⟨hperm, hperm.length_eq, ?_⟩
  exact Multiset.coe_eq_coe.mpr (hperm.map Item.id)

/-- Witness for C5 at a concrete reorder (`[A,B,C]`, drag `A` to the end). -/
theorem reorder_preserves_id_multiset_witness :
    ((moveToIndex [⟨"A", "", false⟩, ⟨"B", "", false⟩, ⟨"C", "", false⟩] "A" 3).getD
        [⟨"A", "", false⟩, ⟨"B", "", false⟩, ⟨"C", "", false⟩]).Perm
      [⟨"A", "", false⟩, ⟨"B", "", false⟩, ⟨"C", "", false⟩] :=
  (reorder_preserves_id_multiset [⟨"A", "", false⟩, ⟨"B", "", false⟩, ⟨"C", "", false⟩]
    "A" 3 (by decide) (by decide)).1

/-! ### Claim C6 (corrected) -/

/-- C6 counterexample: a pointer exactly on an item's vertical midpoint does
NOT insert before that item.  For the single rect `(top 0, height 10)` the
midpoint is `5`, and a pointer at exactly `5` yields insertion index `1`
(append), not the item's own index `0` as the claim states: `clientY < midY`
is false on a tie. -/
theorem midpoint_tie_counterexample :
    midY ⟨0, 10⟩ = 5 ∧ indexFromPointerY [⟨0, 10⟩] 5 = 1 := by
  constructor
  · norm_num [midY]
  · norm_num [indexFromPointerY, midY]

/-- C6 (amended): for every non-empty rect sequence and pointer exactly on the
midpoint of the item at index `i` (and not less than any earlier midpoint),
the returned insertion index is strictly greater than `i` — a pointer exactly
on a midpoint counts as inserting *after* that item, because only a strictly
greater midpoint stops the scan. -/
theorem midpoint_tie_inserts_after (rects : List Rect) (pointerY : ℚ) (i : Nat)
    (hi : i < rects.length) (heq : midY (rects.getD i default) = pointerY)
    (hearlier : ∀ j, j < i → midY (rects.getD j default) ≤ pointerY) :
    i < indexFromPointerY rects pointerY := by
  induction rects generalizing i with
  | nil => simp at hi
  | cons r rest ih =>
    cases i with
    | zero =>
      simp only [List.getD_cons_zero] at heq
      have : ¬ pointerY < midY r := by rw [← heq]; exact lt_irrefl _
      simp only [indexFromPointerY, if_neg this]
      omega
    | succ j =>
      have h0 : midY r ≤ pointerY := by
        have := hearlier 0 (Nat.succ_pos j)
        simpa using this
      have hnlt : ¬ pointerY < midY r := not_lt.mpr h0
      simp only [indexFromPointerY, if_neg hnlt]
      have hj : j < rest.length := by simpa using hi
      have heq2 : midY (rest.getD j default) = pointerY := by simpa using heq
      have hearlier2 : ∀ k, k < j → midY (rest.getD k default) ≤ pointerY := by
        intro k hk
        have := hearlier (k + 1) (by omega)
        simpa using this
      have := ih j hj heq2 hearlier2
      omega

/-- Witness for the amended C6 theorem at a concrete input: two stacked rects,
pointer exactly on the first one's midpoint; the index returned is greater
than 0 (in fact the pointer lands after the first item). -/
theorem midpoint_tie_inserts_after_witness :
    0 < indexFromPointerY [⟨0, 10⟩, ⟨10, 10⟩] 5 :=
  midpoint_tie_inserts_after [⟨0, 10⟩, ⟨10, 10⟩] 5 0 (by norm_num)
    (by norm_num [midY]) (by intro j hj; omega)

/-! ### Claim C7 (corrected) -/

/-- C7 counterexample: with a drag already in progress for item `"a"`, a
second `dragstart` resolving to a different draggable item `"b"` is NOT
ignored — `draggingId` is overwritten with `"b"` (there is no
already-dragging guard in `onDragStart`). -/
theorem reentrant_dragstart_counterexample :
    onDragStart (some "a") (some ⟨"b", false⟩) ≠ some "a"
    ∧ onDragStart (some "a") (some ⟨"b", false⟩) = some "b" := by
  constructor
  · decide
  · decide

/-- C7 (amended): a `dragstart` on any draggable row (non-empty id, not
excluded) always overwrites the session's `draggingId` with that row's id,
regardless of whether a drag is already in progress — the LAST begin wins;
only excluded rows and rows without an id are ignored. -/
theorem reentrant_dragstart_last_wins (s : Option String) (t : DragTarget)
    (hid : t.id ≠ "") (hexcl : t.excluded = false) :
    onDragStart s (some t) = some t.id := by
  simp only [onDragStart]
  have h1 : (t.id == "") = false := by simpa using hid
  rw [h1, hexcl]
  simp

/-- Witness for the amended C7 theorem: an in-progress drag of `"a"` is
overwritten by a `dragstart` on `"b"`. -/
theorem reentrant_dragstart_last_wins_witness :
    onDragStart (some "a") (some ⟨"b", false⟩) = some "b" :=
  reentrant_dragstart_last_wins (some "a") ⟨"b", false⟩ (by decide) rfl

/-! ### Claim C4 -/

/-- C4: no-op drop is the identity.  If `draggedId` sits at index `f` and the
drop index is `f` or `f + 1`, `moveToIndex` returns without writing
(result `none`), so the stored list stays exactly the original. -/
theorem noop_drop_is_identity (items : List Item) (draggedId : String) (toIndex : Int) (f : Nat)
    (hf : items.findIdx? (fun i => i.id == draggedId) = some f)
    (ht : toIndex = (f : Int) ∨ toIndex = (f : Int) + 1) :
    moveToIndex items draggedId toIndex = none
    ∧ (moveToIndex items draggedId toIndex).getD items = items := by
  have hlt : f < items.length := (List.findIdx?_eq_some_iff_getElem.mp hf).1
  have hmain : moveToIndex items draggedId toIndex = none := by
    by_cases hlen : items.length ≤ 1
    · simp [moveToIndex, hlen]
    · have hor : max 0 (min (items.length : Int) toIndex) = (f : Int)
          ∨ max 0 (min (items.length : Int) toIndex) = (f : Int) + 1 := by
        rcases ht with h | h
        · left; subst h; omega
        · right; subst h; omega
      rcases hor with h | h <;> simp [moveToIndex, hf, hlen, h]
  exact ⟨hmain, by rw [hmain]; rfl⟩

/-- Witness for C4: dropping `"B"` of `[A, B, C]` onto index 1 (its own slot)
and onto index 2 (just below itself) both leave the list untouched. -/
theorem noop_drop_is_identity_witness :
    moveToIndex [⟨"A", "", false⟩, ⟨"B", "", false⟩, ⟨"C", "", false⟩] "B" 1 = none
    ∧ (moveToIndex [⟨"A", "", false⟩, ⟨"B", "", false⟩, ⟨"C", "", false⟩] "B" 1).getD
        [⟨"A", "", false⟩, ⟨"B", "", false⟩, ⟨"C", "", false⟩]
      = [⟨"A", "", false⟩, ⟨"B", "", false⟩, ⟨"C", "", false⟩] :=
  noop_drop_is_identity [⟨"A", "", false⟩, ⟨"B", "", false⟩, ⟨"C", "", false⟩] "B" 1 1
    (by decide) (Or.inl rfl)

/-! ### Claim C8 -/

/-- C8: an absent/stale `draggedId` is a harmless no-op for both engines: the
embedded functions are total (nothing can throw) and both return `none`, i.e.
no write to storage happens and the stored list is untouched. -/
theorem stale_dragged_id_noop (items : List Item) (beforeAll : List SheduleItem)
    (draggedId : String) (t1 t2 : Int)
    (h1 : ∀ i ∈ items, i.id ≠ draggedId) (h2 : ∀ i ∈ beforeAll, i.id ≠ draggedId) :
    moveToIndex items draggedId t1 = none
    ∧ moveToIndexWithReflow beforeAll draggedId t2 = none := by
  constructor
  · have hnone : items.findIdx? (fun i => i.id == draggedId) = none := by
      rw [List.findIdx?_eq_none_iff]
      intro x hx
      simpa using h1 x hx
    simp [moveToIndex, hnone]
  · have hacts : (activitiesOf beforeAll).findIdx? (fun i => i.id == draggedId) = none := by
      rw [List.findIdx?_eq_none_iff]
      intro x hx
      have : x ∈ beforeAll := List.mem_of_mem_filter hx
      simpa using h2 x this
    simp only [moveToIndexWithReflow]
    split
    · rfl
    · rfl
    case _ first second rest3 heq =>
      rw [hacts]

/-! ### Claim C1 -/

/-- C1: the duration invariant of the time reflow.  Whenever
`moveToIndexWithReflow` writes a result, the written list is the re-timed new
order followed by the END row; for every item except the last in the new
order, the forward difference `(newTime[i+1] - newTime[i]) mod 1440` equals
the duration captured for that item's id under the pre-reorder order, and the
new END time is the last new-order item's assigned time plus that item's own
captured duration. -/
theorem timeReflow_duration_invariant (beforeAll : List SheduleItem) (draggedId : String)
    (toIndex : Int) (res : List SheduleItem)
    (h : moveToIndexWithReflow beforeAll draggedId toIndex = some res) :
    (∀ i, i + 1 < res.dropLast.length →
      ((toMinutes ((res.dropLast.getD (i + 1) default).time) : Int)
          - (toMinutes ((res.dropLast.getD i default).time) : Int)) % 1440
        = lookupDur (durationsOf beforeAll) ((res.dropLast.getD i default).id))
    ∧ res.getLast?.map SheduleItem.time
      = some (addMinutes ((res.dropLast.getD (res.dropLast.length - 1) default).time)
          (lookupDur (durationsOf beforeAll)
            ((res.dropLast.getD (res.dropLast.length - 1) default).id))) := by
  obtain ⟨idxD, moved, after, hfind, hget, hafter, hlen2, hlenEq, hperm, hres⟩ :=
    reflow_inversion h
  have hdrop : res.dropLast
      = (reflowTimes after (((activitiesOf beforeAll).getD 0 default).time)
          (durationsOf beforeAll)).1 := by
    rw [hres]
    exact List.dropLast_concat
  have hlenout := reflowTimes_length (durationsOf beforeAll) after
    (((activitiesOf beforeAll).getD 0 default).time)
  have hbounds : ∀ k, 0 ≤ lookupDur (durationsOf beforeAll) k
      ∧ lookupDur (durationsOf beforeAll) k < 1440 := by
    intro k
    unfold durationsOf
    exact lookupDur_bounds _ _ k
  constructor
  · intro i hi
    rw [hdrop] at hi ⊢
    have hia : i + 1 < after.length := by rw [hlenout] at hi; exact hi
    have hchain := reflowTimes_chain (durationsOf beforeAll) after
      (((activitiesOf beforeAll).getD 0 default).time) i hia
    rw [hchain]
    have hadd := toMinutes_addMinutes
      (((reflowTimes after (((activitiesOf beforeAll).getD 0 default).time)
          (durationsOf beforeAll)).1.getD i default).time)
      (lookupDur (durationsOf beforeAll)
        (((reflowTimes after (((activitiesOf beforeAll).getD 0 default).time)
            (durationsOf beforeAll)).1.getD i default).id))
    have hb := hbounds (((reflowTimes after (((activitiesOf beforeAll).getD 0 default).time)
        (durationsOf beforeAll)).1.getD i default).id)
    have hlt := toMinutes_lt (((reflowTimes after
        (((activitiesOf beforeAll).getD 0 default).time)
        (durationsOf beforeAll)).1.getD i default).time)
    omega
  · have hane : after ≠ [] := by
      intro he
      rw [he] at hlenEq
      simp only [List.length_nil] at hlenEq
      omega
    have hlast : res.getLast?
        = some (match endBeforeOf beforeAll with
          | some e =>
            { e with
              time := (reflowTimes after (((activitiesOf beforeAll).getD 0 default).time)
                  (durationsOf beforeAll)).2 }
          | none =>
            { id := END_ID, text := "End",
              time := (reflowTimes after (((activitiesOf beforeAll).getD 0 default).time)
                  (durationsOf beforeAll)).2 }) := by
      rw [hres]
      exact List.getLast?_concat _
    have hfin := reflowTimes_final (durationsOf beforeAll) after
      (((activitiesOf beforeAll).getD 0 default).time) hane
    rw [hlast, hdrop, hlenout, ← hfin]
    cases endBeforeOf beforeAll <;> rfl

/-- Witness for C1: the reorder `[A@08:00, B@08:30, END@09:00]` with `B`
dropped at index 0 writes `[B@08:00, A@08:30, END@09:00]`; the first forward
difference equals B's captured duration, and END's time is A's new time plus
A's captured duration. -/
theorem timeReflow_duration_invariant_witness :
    (((toMinutes ((([⟨"B", "B", "08:00"⟩, ⟨"A", "A", "08:30"⟩,
            ⟨END_ID, "End", "09:00"⟩] : List SheduleItem).dropLast.getD 1 default).time) : Int)
        - (toMinutes ((([⟨"B", "B", "08:00"⟩, ⟨"A", "A", "08:30"⟩,
            ⟨END_ID, "End", "09:00"⟩] : List SheduleItem).dropLast.getD 0 default).time) : Int))
          % 1440
      = lookupDur
          (durationsOf [⟨"A", "A", "08:00"⟩, ⟨"B", "B", "08:30"⟩, ⟨END_ID, "End", "09:00"⟩])
          ((([⟨"B", "B", "08:00"⟩, ⟨"A", "A", "08:30"⟩,
            ⟨END_ID, "End", "09:00"⟩] : List SheduleItem).dropLast.getD 0 default).id))
    ∧ ([⟨"B", "B", "08:00"⟩, ⟨"A", "A", "08:30"⟩,
          ⟨END_ID, "End", "09:00"⟩] : List SheduleItem).getLast?.map SheduleItem.time
      = some (addMinutes
          ((([⟨"B", "B", "08:00"⟩, ⟨"A", "A", "08:30"⟩,
            ⟨END_ID, "End", "09:00"⟩] : List SheduleItem).dropLast.getD
              (([⟨"B", "B", "08:00"⟩, ⟨"A", "A", "08:30"⟩,
                ⟨END_ID, "End", "09:00"⟩] : List SheduleItem).dropLast.length - 1)
              default).time)
          (lookupDur
            (durationsOf [⟨"A", "A", "08:00"⟩, ⟨"B", "B", "08:30"⟩, ⟨END_ID, "End", "09:00"⟩])
            ((([⟨"B", "B", "08:00"⟩, ⟨"A", "A", "08:30"⟩,
              ⟨END_ID, "End", "09:00"⟩] : List SheduleItem).dropLast.getD
                (([⟨"B", "B", "08:00"⟩, ⟨"A", "A", "08:30"⟩,
                  ⟨END_ID, "End", "09:00"⟩] : List SheduleItem).dropLast.length - 1)
                default).id))) := by
  have hmain := timeReflow_duration_invariant
    [⟨"A", "A", "08:00"⟩, ⟨"B", "B", "08:30"⟩, ⟨END_ID, "End", "09:00"⟩] "B" 0
    [⟨"B", "B", "08:00"⟩, ⟨"A", "A", "08:30"⟩, ⟨END_ID, "End", "09:00"⟩] (by decide)
  exact ⟨hmain.1 0 (by decide), hmain.2⟩

/-! ### Claim C2 -/

/-- C2: the anchor is unconditionally the OLD first item's time: whenever a
reflow writes a result, the first written row's time equals the time of the
first pre-reorder activity — including when the dragged item itself was first
(both branches of the `wasFirst` conditional assign the same anchor).  In
particular `A@08:00, B@08:30, END@09:00` reordered to `[B, A]` yields
`B@08:00, A@08:30, END@09:00`. -/
theorem reflow_anchor_is_old_first_time (beforeAll : List SheduleItem) (draggedId : String)
    (toIndex : Int) (res : List SheduleItem)
    (h : moveToIndexWithReflow beforeAll draggedId toIndex = some res) :
    res.head?.map SheduleItem.time = ((activitiesOf beforeAll).head?.map SheduleItem.time)
    ∧ moveToIndexWithReflow
        [⟨"A", "A", "08:00"⟩, ⟨"B", "B", "08:30"⟩, ⟨END_ID, "End", "09:00"⟩] "B" 0
      = some [⟨"B", "B", "08:00"⟩, ⟨"A", "A", "08:30"⟩, ⟨END_ID, "End", "09:00"⟩] := by
  refine ⟨?_, by decide⟩
  obtain ⟨idxD, moved, after, hfind, hget, hafter, hlen2, hlenEq, hperm, hres⟩ :=
    reflow_inversion h
  cases hA : after with
  | nil =>
    rw [hA] at hlenEq
    simp only [List.length_nil] at hlenEq
    omega
  | cons a rest =>
    rw [hres, hA]
    cases hActs : activitiesOf beforeAll with
    | nil =>
      rw [hActs] at hlen2
      simp at hlen2
    | cons c cs =>
      have hstep : (reflowTimes (a :: rest) (((c :: cs).getD 0 default).time)
            (durationsOf beforeAll)).1
          = { a with time := ((c :: cs).getD 0 default).time }
            :: (reflowTimes rest
                (addMinutes ((c :: cs).getD 0 default).time
                  (lookupDur (durationsOf beforeAll) a.id)) (durationsOf beforeAll)).1 := rfl
      rw [hstep]
      simp

/-- Witness for C2: at the scenario input the written head time is the old
first activity's time `"08:00"`. -/
theorem reflow_anchor_is_old_first_time_witness :
    ([⟨"B", "B", "08:00"⟩, ⟨"A", "A", "08:30"⟩,
        ⟨END_ID, "End", "09:00"⟩] : List SheduleItem).head?.map SheduleItem.time
      = ((activitiesOf [⟨"A", "A", "08:00"⟩, ⟨"B", "B", "08:30"⟩,
          ⟨END_ID, "End", "09:00"⟩]).head?.map SheduleItem.time) :=
  (reflow_anchor_is_old_first_time
    [⟨"A", "A", "08:00"⟩, ⟨"B", "B", "08:30"⟩, ⟨END_ID, "End", "09:00"⟩] "B" 0
    [⟨"B", "B", "08:00"⟩, ⟨"A", "A", "08:30"⟩, ⟨END_ID, "End", "09:00"⟩] (by decide)).1

/-! ### Claim C9 -/

theorem moveToIndexWithReflow_isSome (beforeAll : List SheduleItem) (draggedId : String)
    (toIndex : Int) (hlen : 2 ≤ (activitiesOf beforeAll).length)
    (hpresent : ((activitiesOf beforeAll).findIdx? (fun i => i.id == draggedId)).isSome) :
    (moveToIndexWithReflow beforeAll draggedId toIndex).isSome := by
  obtain ⟨idxD, hfind⟩ := Option.isSome_iff_exists.mp hpresent
  have hidx : idxD < (activitiesOf beforeAll).length :=
    (List.findIdx?_eq_some_iff_getElem.mp hfind).1
  have hget := List.getElem?_eq_getElem hidx
  simp only [moveToIndexWithReflow]
  split
  case _ heq => rw [heq] at hlen; simp at hlen
  case _ heq => rw [heq] at hlen; simp at hlen
  case _ first second rest3 heq =>
    simp [hfind, hget]

/-- C9: a reflow on a schedule list that lacks the END sentinel never fails:
with at least 2 activities and a present `draggedId` it always writes a
result; the duration capture used the default terminal time `"23:59"`; the
reordered part (everything before the last row) is a permutation of the
original activities — END is never itself reordered — and the written list
ends with a synthesized END row (`id __END__`, text `"End"`) whose time is
freshly computed as the last item's assigned time plus its captured
duration. -/
theorem reflow_missing_end_recovers (beforeAll : List SheduleItem) (draggedId : String)
    (toIndex : Int)
    (hnoEnd : ∀ x ∈ beforeAll, x.id ≠ END_ID)
    (hlen : 2 ≤ (activitiesOf beforeAll).length)
    (hpresent : ((activitiesOf beforeAll).findIdx? (fun i => i.id == draggedId)).isSome) :
    (moveToIndexWithReflow beforeAll draggedId toIndex).isSome
    ∧ endTimeBeforeOf beforeAll = "23:59"
    ∧ ((reflowResult beforeAll draggedId toIndex).dropLast.map SheduleItem.id).Perm
        ((activitiesOf beforeAll).map SheduleItem.id)
    ∧ (reflowResult beforeAll draggedId toIndex).getLast?
      = some (⟨END_ID, "End",
          addMinutes
            (((reflowResult beforeAll draggedId toIndex).dropLast.getD
                ((reflowResult beforeAll draggedId toIndex).dropLast.length - 1) default).time)
            (lookupDur (durationsOf beforeAll)
              (((reflowResult beforeAll draggedId toIndex).dropLast.getD
                  ((reflowResult beforeAll draggedId toIndex).dropLast.length - 1)
                  default).id))⟩ : SheduleItem) := by
  have hend : endBeforeOf beforeAll = none := by
    unfold endBeforeOf
    rw [List.find?_eq_none]
    intro x hx
    simpa using hnoEnd x hx
  have hendT : endTimeBeforeOf beforeAll = "23:59" := by
    unfold endTimeBeforeOf
    rw [hend]
  have hsome := moveToIndexWithReflow_isSome beforeAll draggedId toIndex hlen hpresent
  obtain ⟨res, h⟩ := Option.isSome_iff_exists.mp hsome
  obtain ⟨idxD, moved, after, hfind, hget, hafter, hlen2, hlenEq, hperm, hres⟩ :=
    reflow_inversion h
  have hgd : reflowResult beforeAll draggedId toIndex = res := by
    unfold reflowResult
    rw [h]
    rfl
  have hdrop : res.dropLast
      = (reflowTimes after (((activitiesOf beforeAll).getD 0 default).time)
          (durationsOf beforeAll)).1 := by
    rw [hres]
    exact List.dropLast_concat
  have hlenout := reflowTimes_length (durationsOf beforeAll) after
    (((activitiesOf beforeAll).getD 0 default).time)
  have hane : after ≠ [] := by
    intro he
    rw [he] at hlenEq
    simp only [List.length_nil] at hlenEq
    omega
  have hlast : res.getLast?
      = some (⟨END_ID, "End",
          (reflowTimes after (((activitiesOf beforeAll).getD 0 default).time)
            (durationsOf beforeAll)).2⟩ : SheduleItem) := by
    rw [hres, List.getLast?_concat, hend]
  refine ⟨hsome, hendT, ?_, ?_⟩
  · rw [hgd, hdrop, reflowTimes_map_id]
    exact hperm.map SheduleItem.id
  · have hfin := reflowTimes_final (durationsOf beforeAll) after
      (((activitiesOf beforeAll).getD 0 default).time) hane
    rw [hgd, hlast, hdrop, hlenout, ← hfin]

/-- Witness for C9: the END-less list `[A@08:00, B@08:30]` with `B` dropped at
index 0 reflows successfully (writing `[B@08:00, A@23:29, END@23:59]`). -/
theorem reflow_missing_end_recovers_witness :
    (moveToIndexWithReflow [⟨"A", "A", "08:00"⟩, ⟨"B", "B", "08:30"⟩] "B" 0).isSome
    ∧ endTimeBeforeOf [⟨"A", "A", "08:00"⟩, ⟨"B", "B", "08:30"⟩] = "23:59"
    ∧ ((reflowResult [⟨"A", "A", "08:00"⟩, ⟨"B", "B", "08:30"⟩] "B" 0).dropLast.map
        SheduleItem.id).Perm
      ((activitiesOf [⟨"A", "A", "08:00"⟩, ⟨"B", "B", "08:30"⟩]).map SheduleItem.id) :=
  have hall := reflow_missing_end_recovers [⟨"A", "A", "08:00"⟩, ⟨"B", "B", "08:30"⟩] "B" 0
    (by decide) (by decide) (by decide)
  ⟨hall.1, hall.2.1, hall.2.2.1⟩

/-! ### Claim C10 -/

/-- C10: a no-op drop on a schedule is a time fixpoint.  For a stored list
`acts ++ [END]` whose times are all canonical in-range `"HH:MM"` strings, with
unique activity ids and the dragged activity at index `f`, dropping at index
`f` or `f + 1` (order unchanged) rewrites the list to exactly its original
value: every activity and END get back exactly their original times, even
though the reflow path has no no-op early return and recomputes every time
from the anchor and the captured durations. -/
theorem noop_reflow_time_fixpoint (acts : List SheduleItem) (endIt : SheduleItem)
    (draggedId : String) (toIndex : Int) (f : Nat)
    (hendid : endIt.id = END_ID)
    (hactsid : ∀ a ∈ acts, a.id ≠ END_ID)
    (hnodup : (acts.map SheduleItem.id).Nodup)
    (hcanon : ∀ a ∈ acts, isCanonicalTime a.time = true)
    (hcanonEnd : isCanonicalTime endIt.time = true)
    (hlen : 2 ≤ acts.length)
    (hf : acts.findIdx? (fun i => i.id == draggedId) = some f)
    (ht : toIndex = (f : Int) ∨ toIndex = (f : Int) + 1) :
    moveToIndexWithReflow (acts ++ [endIt]) draggedId toIndex = some (acts ++ [endIt]) := by
  have hactsOf : activitiesOf (acts ++ [endIt]) = acts := by
    unfold activitiesOf
    rw [List.filter_append]
    have h1 : acts.filter (fun i => !(i.id == END_ID)) = acts :=
      List.filter_eq_self.mpr (fun a ha => by simpa using hactsid a ha)
    have h2 : [endIt].filter (fun i => !(i.id == END_ID)) = [] := by simp [hendid]
    rw [h1, h2, List.append_nil]
  have hendOf : endBeforeOf (acts ++ [endIt]) = some endIt := by
    unfold endBeforeOf
    rw [List.find?_append]
    have h1 : acts.find? (fun i => i.id == END_ID) = none :=
      List.find?_eq_none.mpr (fun x hx => by simpa using hactsid x hx)
    rw [h1]
    simp [hendid]
  have hneTime : (endIt.time == "") = false := by
    have hne : endIt.time ≠ "" := by
      intro he
      rw [he] at hcanonEnd
      exact absurd hcanonEnd (by decide)
    simpa using hne
  have hendT : endTimeBeforeOf (acts ++ [endIt]) = endIt.time := by
    unfold endTimeBeforeOf
    rw [hendOf]
    simp [hneTime]
  have hdurs : durationsOf (acts ++ [endIt]) = captureDurations acts endIt.time := by
    unfold durationsOf
    rw [hactsOf, hendT]
  have hflt : f < acts.length := (List.findIdx?_eq_some_iff_getElem.mp hf).1
  have hsome := moveToIndexWithReflow_isSome (acts ++ [endIt]) draggedId toIndex
    (by rw [hactsOf]; exact hlen) (by rw [hactsOf, hf]; rfl)
  obtain ⟨res, h⟩ := Option.isSome_iff_exists.mp hsome
  obtain ⟨idxD, moved, after, hfind, hget, hafter, hlen2, hlenEq, hperm, hres⟩ :=
    reflow_inversion h
  rw [hactsOf] at hfind hget hafter
  have hidx : idxD = f := by
    rw [hf] at hfind
    exact (Option.some_inj.mp hfind).symm
  subst hidx
  have hdest : destIndex acts.length idxD toIndex = idxD := by
    unfold destIndex
    have hmin : min (acts.length : Int) toIndex = toIndex := by
      apply min_eq_right
      rcases ht with h' | h' <;> (subst h'; omega)
    have hmax : max 0 toIndex = toIndex := by
      apply max_eq_right
      rcases ht with h' | h' <;> (subst h'; omega)
    rw [hmin, hmax]
    rcases ht with h' | h' <;> (subst h'; split <;> omega)
  have hmoved : moved = acts.get ⟨idxD, hflt⟩ := by
    rw [List.getElem?_eq_getElem hflt] at hget
    exact (Option.some_inj.mp hget).symm
  have hafterEq : after = acts := by
    rw [hafter, hdest, hmoved]
    exact insertIdx_eraseIdx_self acts idxD (acts.get ⟨idxD, hflt⟩)
      (List.getElem?_eq_getElem hflt)
  obtain ⟨a, rest, hacons⟩ : ∃ a rest, acts = a :: rest := by
    cases acts with
    | nil => simp at hlen
    | cons a rest => exact ⟨a, rest, rfl⟩
  have hadj : DursAdjacent (captureDurations acts endIt.time) acts endIt.time :=
    dursAdjacent_capture acts endIt.time hnodup
  have hfix : reflowTimes acts ((acts.getD 0 default).time)
      (captureDurations acts endIt.time) = (acts, endIt.time) := by
    rw [hacons] at hadj hcanon ⊢
    simp only [List.getD_cons_zero]
    exact reflowTimes_fixpoint (captureDurations (a :: rest) endIt.time) rest a endIt.time
      hcanon hcanonEnd hadj
  rw [hactsOf, hdurs, hafterEq, hendOf, hfix] at hres
  rw [h, hres]

/-- Witness for C10: dropping `A` of `[A@08:00, B@08:30, END@09:00]` back onto
its own slot rewrites the stored list to exactly its original value. -/
theorem noop_reflow_time_fixpoint_witness :
    moveToIndexWithReflow
        ([⟨"A", "A", "08:00"⟩, ⟨"B", "B", "08:30"⟩] ++ [⟨END_ID, "End", "09:00"⟩]) "A" 0
      = some ([⟨"A", "A", "08:00"⟩, ⟨"B", "B", "08:30"⟩] ++ [⟨END_ID, "End", "09:00"⟩]) :=
  noop_reflow_time_fixpoint [⟨"A", "A", "08:00"⟩, ⟨"B", "B", "08:30"⟩]
    ⟨END_ID, "End", "09:00"⟩ "A" 0 0 rfl (by decide) (by decide) (by decide) (by decide)
    (by decide) (by decide) (Or.inl rfl)

/-- Witness for C8: dragging an id that occurs in neither list writes
nothing. -/
theorem stale_dragged_id_noop_witness :
    moveToIndex [⟨"A", "", false⟩, ⟨"B", "", false⟩] "ghost" 0 = none
    ∧ moveToIndexWithReflow
        [⟨"A", "A", "08:00"⟩, ⟨"B", "B", "08:30"⟩, ⟨END_ID, "End", "09:00"⟩] "ghost" 0 = none :=
  stale_dragged_id_noop [⟨"A", "", false⟩, ⟨"B", "", false⟩]
    [⟨"A", "A", "08:00"⟩, ⟨"B", "B", "08:30"⟩, ⟨END_ID, "End", "09:00"⟩] "ghost" 0 0
    (by decide) (by decide)

end Listy
